import Mathlib

/-!
Verification development for a local HTTP service that builds directory
trees and multi-language dependency graphs (Rust sources:
`dependency_analyzer.rs`, `file_system.rs`, `handlers.rs`, `models.rs`,
`main.rs`).  Shallow embedding: filesystem state is passed explicitly,
`HashMap`/`HashSet` are modelled as association lists / first-occurrence
duplicate-free lists, parsing (tree-sitter) is abstracted as an oracle
yielding the raw import literals per file.
-/

namespace RP

/-! ### Natural comparison

Modelled from the spec: the repository's `crate::utils::natural_compare`
(file `utils.rs` is not part of `src/`; `main.rs` shows it delegates to an
external natural-order comparator).  The spec defines it as: split each
string into maximal runs of digits and non-digits; compare pairs
left-to-right; digit runs compare as non-negative integers, non-digit runs
compare lexicographically (byte-wise). -/

def cmpN (m n : Nat) : Ordering :=
  if m < n then Ordering.lt else if n < m then Ordering.gt else Ordering.eq

def lexChars : List Char → List Char → Ordering
  | [], [] => Ordering.eq
  | [], _ :: _ => Ordering.lt
  | _ :: _, [] => Ordering.gt
  | a :: as, b :: bs =>
    match cmpN a.toNat b.toNat with
    | Ordering.eq => lexChars as bs
    | o => o

inductive NatTok where
  | num (v : Nat)
  | txt (s : List Char)
deriving DecidableEq

def digitsVal (l : List Char) : Nat :=
  l.foldl (fun acc c => acc * 10 + (c.toNat - 48)) 0

def tokenizeF : Nat → List Char → List NatTok
  | _, [] => []
  | 0, _ :: _ => []
  | fuel + 1, c :: cs =>
    if c.isDigit then
      NatTok.num (digitsVal (c :: cs.takeWhile Char.isDigit)) ::
        tokenizeF fuel (cs.dropWhile Char.isDigit)
    else
      NatTok.txt (c :: cs.takeWhile (fun x => !x.isDigit)) ::
        tokenizeF fuel (cs.dropWhile (fun x => !x.isDigit))

/-- Maximal-run tokenization; the fuel (one unit per produced token) is
the string length, which always suffices. -/
def tokenize (l : List Char) : List NatTok := tokenizeF l.length l

def tokCmp : NatTok → NatTok → Ordering
  | NatTok.num m, NatTok.num n => cmpN m n
  | NatTok.txt s, NatTok.txt t => lexChars s t
  | NatTok.num _, NatTok.txt _ => Ordering.lt
  | NatTok.txt _, NatTok.num _ => Ordering.gt

def lexToks : List NatTok → List NatTok → Ordering
  | [], [] => Ordering.eq
  | [], _ :: _ => Ordering.lt
  | _ :: _, [] => Ordering.gt
  | a :: as, b :: bs =>
    match tokCmp a b with
    | Ordering.eq => lexToks as bs
    | o => o

def natural_compare (a b : String) : Ordering :=
  lexToks (tokenize a.data) (tokenize b.data)

def natLE (a b : String) : Prop := natural_compare a b ≠ Ordering.gt

instance natLE.decRel : DecidableRel natLE :=
  fun a b => inferInstanceAs (Decidable (natural_compare a b ≠ Ordering.gt))

/-! ### Paths

Paths are absolute and represented as component lists; rendering a cleaned
component list `["r", "a.js"]` yields the platform string `"/r/a.js"`.
`cleanComps` is the lexical clean of the `path_clean` crate on absolute
paths: `.` and empty segments are dropped, `..` pops one component (a `..`
at the root is dropped). -/

def splitSlash : List Char → List (List Char)
  | [] => [[]]
  | c :: cs =>
    match splitSlash cs with
    | [] => [[]]
    | seg :: rest => if c = '/' then [] :: seg :: rest else (c :: seg) :: rest

def splitSegs (s : String) : List String :=
  (splitSlash s.data).map fun seg => String.mk seg

def cleanAux : List String → List String → List String
  | acc, [] => acc.reverse
  | acc, seg :: rest =>
    if seg = "" ∨ seg = "." then cleanAux acc rest
    else if seg = ".." then cleanAux acc.tail rest
    else cleanAux (seg :: acc) rest

def cleanComps (segs : List String) : List String := cleanAux [] segs

def renderPath (c : List String) : String :=
  c.foldl (fun acc seg => acc ++ "/" ++ seg) ""

def parentComps (f : String) : List String :=
  (cleanComps (splitSegs f)).dropLast

/-- Model of `Path::join` of a parent directory with a relative fragment; a fragment
starting with `/` is absolute and replaces the parent. -/
def joinComps (parent : List String) (rel : String) : List String :=
  match rel.data with
  | '/' :: _ => splitSegs rel
  | _ => parent ++ splitSegs rel

/-! ### Resolver (`resolve_relative_path` in `dependency_analyzer.rs`)

`isFile` abstracts `Path::is_file` on cleaned absolute component lists. -/

def resolve_relative_path (isFile : List String → Bool) (parentDir : List String)
    (importStr : String) (rootPath : List String) : List String → Option String
  | [] => none
  | suffix :: rest =>
    let candidate := cleanComps (joinComps parentDir (importStr ++ suffix))
    if isFile candidate && rootPath.isPrefixOf candidate then
      some (renderPath candidate)
    else
      resolve_relative_path isFile parentDir importStr rootPath rest

/-! ### Dependency graph (`DependencyGraph = HashMap<String, Vec<String>>`)

Modelled as an association list; `HashSet` accumulation is modelled as a
duplicate-free list in first-insertion order. -/

abbrev DepGraph := List (String × List String)

def lookupG (g : DepGraph) (k : String) : Option (List String) :=
  (g.find? (fun e => e.1 == k)).map (fun e => e.2)

def depsOf (g : DepGraph) (k : String) : List String :=
  (lookupG g k).getD []

/-- Model of `Path::new(p).file_name() == Some("__init__.py")`. -/
def isInitFile (p : String) : Bool :=
  (splitSegs p).getLast? == some "__init__.py"

def insertOnce (l : List String) (x : String) : List String :=
  if x ∈ l then l else l ++ [x]

def dedupFirst (l : List String) : List String := l.foldl insertOnce []

/-! `collect_transitive_init_deps` from `dependency_analyzer.rs`, with an
explicit fuel standing for the call stack; `collectDepsAux` is the loop
over the direct dependencies of the currently visited `__init__.py`. -/

mutual

def collect_transitive_init_deps (fuel : Nat) (initFile : String) (g : DepGraph)
    (fin vis : List String) : List String × List String :=
  match fuel with
  | 0 => (fin, vis)
  | fuel' + 1 =>
    if initFile ∈ vis then (fin, vis)
    else
      match lookupG g initFile with
      | none => (fin, initFile :: vis)
      | some ds => collectDepsAux fuel' g ds fin (initFile :: vis)
termination_by (fuel, 0)

def collectDepsAux (fuel : Nat) (g : DepGraph) (ds : List String)
    (fin vis : List String) : List String × List String :=
  match ds with
  | [] => (fin, vis)
  | dep :: rest =>
    let st :=
      if isInitFile dep then
        collect_transitive_init_deps fuel dep g (insertOnce fin dep) vis
      else
        (insertOnce fin dep, vis)
    collectDepsAux fuel g rest st.1 st.2
termination_by (fuel, ds.length + 1)

end

/-- Number of graph entries whose key is not yet visited: the fuel bound. -/
def keysNotVisited (g : DepGraph) (vis : List String) : Nat :=
  g.countP (fun e => decide (e.1 ∉ vis))

/-- The per-entry expansion of `expand_init_dependencies`: seed the set with
the direct dependencies, then pull the transitive closure through every
direct `__init__.py` dependency (fresh visited set per direct dependency). -/
def expandEntryDeps (g : DepGraph) (direct : List String) : List String :=
  direct.foldl
    (fun fin dep =>
      if isInitFile dep then
        (collect_transitive_init_deps (g.length + 1) dep g fin []).1
      else fin)
    (dedupFirst direct)

/-- Definition `expand_init_dependencies` from `dependency_analyzer.rs`: expand each
entry and sort the resulting set by natural comparison (stable sort of the
first-insertion-order set, as `sort_by(natord::compare)` on the collected
`Vec`). -/
def expand_init_dependencies (g : DepGraph) : DepGraph :=
  g.map (fun e => (e.1, List.insertionSort natLE (expandEntryDeps g e.2)))

/-- Init-chain reachability in a dependency graph: everything inserted by a
completed traversal of `collect_transitive_init_deps` starting at `f`. -/
inductive InitReach (g : DepGraph) : String → String → Prop
  | direct (f d : String) : d ∈ depsOf g f → InitReach g f d
  | step (f d x : String) : d ∈ depsOf g f → isInitFile d = true →
      InitReach g d x → InitReach g f x

/-- A visited node whose direct dependencies have all been recorded. -/
def ClosedAt (g : DepGraph) (fin vis : List String) (v : String) : Prop :=
  ∀ d ∈ depsOf g v, d ∈ fin ∧ (isInitFile d = true → d ∈ vis)

/-- The semantic dependency set of one graph entry after init expansion. -/
def SemSet (g : DepGraph) (direct : List String) (x : String) : Prop :=
  x ∈ direct ∨ ∃ d ∈ direct, isInitFile d = true ∧ InitReach g d x

/-- Everything `collect_transitive_init_deps fuel f g fin vis` guarantees
when the fuel exceeds the number of unvisited keys: the recorded set only
grows by fresh init-reachable nodes, the visited set only grows, `f` ends
up visited, and every newly visited node is closed. -/
def CollectSpec (fuel : Nat) (g : DepGraph) : Prop :=
  ∀ f fin vis, keysNotVisited g vis < fuel →
    (∃ ex, (collect_transitive_init_deps fuel f g fin vis).1 = fin ++ ex ∧
        ex.Nodup ∧ ∀ x ∈ ex, x ∉ fin ∧ InitReach g f x) ∧
    vis ⊆ (collect_transitive_init_deps fuel f g fin vis).2 ∧
    f ∈ (collect_transitive_init_deps fuel f g fin vis).2 ∧
    (∀ v ∈ (collect_transitive_init_deps fuel f g fin vis).2, v ∉ vis →
        ClosedAt g (collect_transitive_init_deps fuel f g fin vis).1
          (collect_transitive_init_deps fuel f g fin vis).2 v)

/-- The analogous guarantees for the loop over a dependency list. -/
def AuxSpec (fuel : Nat) (g : DepGraph) : Prop :=
  ∀ ds fin vis, keysNotVisited g vis < fuel →
    (∃ ex, (collectDepsAux fuel g ds fin vis).1 = fin ++ ex ∧
        ex.Nodup ∧ ∀ x ∈ ex, x ∉ fin ∧ SemSet g ds x) ∧
    vis ⊆ (collectDepsAux fuel g ds fin vis).2 ∧
    (∀ d ∈ ds, d ∈ (collectDepsAux fuel g ds fin vis).1 ∧
        (isInitFile d = true → d ∈ (collectDepsAux fuel g ds fin vis).2)) ∧
    (∀ v ∈ (collectDepsAux fuel g ds fin vis).2, v ∉ vis →
        ClosedAt g (collectDepsAux fuel g ds fin vis).1
          (collectDepsAux fuel g ds fin vis).2 v)

/-! ### Python import rewrite (`process_python_module`) -/

def replaceDot (l : List Char) : List Char :=
  l.map (fun c => if c = '.' then '/' else c)

def repeatChars (s : List Char) : Nat → List Char
  | 0 => []
  | n + 1 => s ++ repeatChars s n

/-- The literal-to-fragment rewrite inside `process_python_module`:
count the leading dots, emit `"../"` repeated `n-1` times when `n > 1`,
then the remainder with `.` replaced by `/`; absolute imports just replace
`.` by `/`. -/
def pythonCleanImportL (m : List Char) : List Char :=
  if m.head? = some '.' then
    let numDots := (m.takeWhile (fun c => c = '.')).length
    let pathPre := if numDots > 1 then repeatChars ['.', '.', '/'] (numDots - 1) else []
    pathPre ++ replaceDot (m.drop numDots)
  else
    replaceDot m

def python_clean_import (m : String) : String :=
  String.mk (pythonCleanImportL m.data)

/-! ### Graph assembler (the per-language scan loops)

Parsing is abstracted: a `LangConfig` carries the extension predicate
(`accepts`), the extraction oracle yielding the raw import literals of a
file (`importsOf`, standing for tree-sitter parse + query), the
language-specific literal rewrite and the ordered suffix list. -/

structure LangConfig where
  accepts : String → Bool
  importsOf : String → List String
  rewrite : String → String
  suffixes : List String

def fileDeps (isFile : List String → Bool) (rootPath : List String)
    (cfg : LangConfig) (f : String) : List String :=
  (cfg.importsOf f).filterMap
    (fun lit =>
      resolve_relative_path isFile (parentComps f) (cfg.rewrite lit) rootPath cfg.suffixes)

/-- Model of `dependency_graph.entry(f).or_default().extend(ds)` on the association
list model. -/
def insertAppend : DepGraph → String → List String → DepGraph
  | [], k, ds => [(k, ds)]
  | e :: rest, k, ds =>
    if e.1 == k then (e.1, e.2 ++ ds) :: rest else e :: insertAppend rest k ds

/-- One language's scan loop (`analyze_javascript_typescript` and its
siblings): filter the file list by extension, resolve every extracted
import, and extend the graph entry when any dependency resolved. -/
def analyzeLang (isFile : List String → Bool) (rootPath : List String)
    (cfg : LangConfig) (files : List String) (g : DepGraph) : DepGraph :=
  (files.filter cfg.accepts).foldl
    (fun g f =>
      if (fileDeps isFile rootPath cfg f).isEmpty then g
      else insertAppend g f (fileDeps isFile rootPath cfg f))
    g

/-- Definition `analyze_dependencies`: run the language analyzers in order over the
flattened file list, starting from the empty graph. -/
def analyze_dependencies (isFile : List String → Bool) (rootPath : List String)
    (cfgs : List LangConfig) (files : List String) : DepGraph :=
  cfgs.foldl (fun g cfg => analyzeLang isFile rootPath cfg files g) []

/-! ### Tree builder (`file_system.rs`)

The filesystem seen by `build_tree` is a finite inductive disk; a `Matcher`
abstracts the `ignore` crate's `Gitignore::matched(path, is_dir)`. -/

inductive Disk where
  | file : Disk
  | dir (entries : List (String × Disk)) : Disk

abbrev Matcher := List String → Bool → Bool

inductive TreeNodeM where
  | file (path : String) : TreeNodeM
  | folder (path : String) (children : List (String × TreeNodeM)) : TreeNodeM

def isDirD : Disk → Bool
  | Disk.file => false
  | Disk.dir _ => true

mutual

def sizeD : Disk → Nat
  | Disk.file => 1
  | Disk.dir es => 1 + sizeDEntries es

def sizeDEntries : List (String × Disk) → Nat
  | [] => 0
  | e :: rest => sizeD e.2 + sizeDEntries rest

end

/-- The comparator of `build_tree`'s `dirents.sort_by`: directories first,
then natural comparison of the entry names. -/
def boolCmp : Bool → Bool → Ordering
  | false, false => Ordering.eq
  | false, true => Ordering.lt
  | true, false => Ordering.gt
  | true, true => Ordering.eq

def dirent_cmp (a b : String × Bool) : Ordering :=
  if a.2 ≠ b.2 then boolCmp b.2 a.2 else natural_compare a.1 b.1

def direntLE (a b : String × Bool) : Prop := dirent_cmp a b ≠ Ordering.gt

instance direntLE.decRel : DecidableRel direntLE :=
  fun a b => inferInstanceAs (Decidable (dirent_cmp a b ≠ Ordering.gt))

def entryLE (a b : String × Disk) : Prop :=
  direntLE (a.1, isDirD a.2) (b.1, isDirD b.2)

instance entryLE.decRel : DecidableRel entryLE :=
  fun a b => inferInstanceAs (Decidable (direntLE (a.1, isDirD a.2) (b.1, isDirD b.2)))

/-- The stable sort applied to the surviving directory entries. -/
def sortDirents (l : List (String × Disk)) : List (String × Disk) :=
  List.insertionSort entryLE l

/-- Definition `build_tree` from `file_system.rs`: filter the entries through the
ignore matcher, sort (folders first, then natural name order), and recurse
into directories reusing the same matcher.  The fuel stands for the
recursion stack; `sizeD` of the disk bounds the depth, so callers pass
that. -/
def build_tree (fuel : Nat) (ig : Matcher) (path : List String) :
    Disk → List (String × TreeNodeM)
  | Disk.file => []
  | Disk.dir entries =>
    match fuel with
    | 0 => []
    | fuelq + 1 =>
      (sortDirents (entries.filter (fun e => !ig (path ++ [e.1]) (isDirD e.2)))).map
        (fun e =>
          match e.2 with
          | Disk.file => (e.1, TreeNodeM.file (renderPath (path ++ [e.1])))
          | Disk.dir ces =>
            (e.1, TreeNodeM.folder (renderPath (path ++ [e.1]))
              (build_tree fuelq ig (path ++ [e.1]) (Disk.dir ces))))

def hasGitignoreEntry (es : List (String × Disk)) : Bool :=
  es.any (fun e => e.1 == ".gitignore")

/-- Modelled from the spec's words for the C4 comparison: like
`build_tree`, but when a child directory contains its own `.gitignore`, a
fresh matcher constructed for that directory replaces the caller's matcher
for the whole subtree (`mk` abstracts building a matcher from the nested
`.gitignore`). -/
def buildTreeSpecNested (fuel : Nat) (mk : List String → Matcher) (ig : Matcher)
    (path : List String) : Disk → List (String × TreeNodeM)
  | Disk.file => []
  | Disk.dir entries =>
    match fuel with
    | 0 => []
    | fuelq + 1 =>
      (sortDirents (entries.filter (fun e => !ig (path ++ [e.1]) (isDirD e.2)))).map
        (fun e =>
          match e.2 with
          | Disk.file => (e.1, TreeNodeM.file (renderPath (path ++ [e.1])))
          | Disk.dir ces =>
            (e.1, TreeNodeM.folder (renderPath (path ++ [e.1]))
              (buildTreeSpecNested fuelq mk
                (if hasGitignoreEntry ces then mk (path ++ [e.1]) else ig)
                (path ++ [e.1]) (Disk.dir ces))))

mutual

/-- Definition `collect_files` from `analyze_dependencies`: flatten the tree to the
paths of its file nodes. -/
def collect_files : List (String × TreeNodeM) → List String
  | [] => []
  | e :: rest => collect_files_node e.2 ++ collect_files rest

def collect_files_node : TreeNodeM → List String
  | TreeNodeM.file p => [p]
  | TreeNodeM.folder _ ch => collect_files ch

end

def lookupDisk : Disk → List String → Option Disk
  | d, [] => some d
  | Disk.file, _ :: _ => none
  | Disk.dir es, seg :: rest =>
    match es.find? (fun e => e.1 == seg) with
    | some e => lookupDisk e.2 rest
    | none => none

/-- Model of `Path::is_file` over the disk rooted (on the real filesystem) at the
component list `rootC`. -/
def isFileAt (rootC : List String) (d : Disk) (c : List String) : Bool :=
  rootC.isPrefixOf c &&
    match lookupDisk d (c.drop rootC.length) with
    | some Disk.file => true
    | _ => false

/-! ### HTTP shell (`handlers.rs`) -/

inductive HttpStatus where
  | ok
  | badRequest
  | internalServerError
deriving DecidableEq

structure DirectoryResponse where
  status : HttpStatus
  success : Bool
  error : Option String
  root : Option String
  tree : Option (List (String × TreeNodeM))

structure DependenciesResponse where
  status : HttpStatus
  success : Bool
  error : Option String
  root : Option String
  dependencyGraph : Option DepGraph

/-- The ambient system state a request handler sees: existence and
canonicalization of the requested path string, the directory contents at a
canonical path (`none` when `read_dir` fails), the ignore matcher built
from `path/.gitignore`, and the language configurations. -/
structure ServerEnv where
  pathExists : String → Bool
  canonicalize : String → Option (List String)
  readDirAt : List String → Option Disk
  matcherAt : List String → Matcher
  configs : List LangConfig

/-- Definition `validate_path` from `file_system.rs`. -/
def validate_path (env : ServerEnv) (requested : String) : Except String (List String) :=
  if env.pathExists requested then
    match env.canonicalize requested with
    | some p => Except.ok p
    | none => Except.error ("Failed to canonicalize path: " ++ requested)
  else
    Except.error ("Path does not exist: " ++ requested)

/-- Handler for `GET /api/directory`. Every branch answers with HTTP 200
(`HttpResponse::Ok`), failures being reported in the JSON body. -/
def get_directory_contents (env : ServerEnv) (queryPath : Option String) :
    DirectoryResponse :=
  let basePathStr := queryPath.getD "."
  match validate_path env basePathStr with
  | Except.error e =>
    { status := HttpStatus.ok, success := false, error := some e,
      root := none, tree := none }
  | Except.ok path =>
    match env.readDirAt path with
    | none =>
      { status := HttpStatus.ok, success := false,
        error := some "Failed to read directory", root := none, tree := none }
    | some d =>
      { status := HttpStatus.ok, success := true, error := none,
        root := some (renderPath path),
        tree := some (build_tree (sizeD d) (env.matcherAt path) path d) }

/-- Handler for `GET /api/dependencies`. -/
def get_dependencies (env : ServerEnv) (queryPath : Option String) :
    DependenciesResponse :=
  let basePathStr := queryPath.getD "."
  match validate_path env basePathStr with
  | Except.error e =>
    { status := HttpStatus.ok, success := false, error := some e,
      root := none, dependencyGraph := none }
  | Except.ok path =>
    match env.readDirAt path with
    | none =>
      { status := HttpStatus.ok, success := false,
        error := some "Failed to read directory", root := none,
        dependencyGraph := none }
    | some d =>
      let tree := build_tree (sizeD d) (env.matcherAt path) path d
      let files := collect_files tree
      let g := analyze_dependencies (isFileAt path d) path env.configs files
      { status := HttpStatus.ok, success := true, error := none,
        root := some (renderPath path),
        dependencyGraph := some (expand_init_dependencies g) }

end RP

namespace RP

/-- C1 helper: the acceptance test for one suffix. -/
def acceptsSuffix (isFile : List String → Bool) (parentDir : List String)
    (importStr : String) (rootPath : List String) (suffix : String) : Bool :=
  isFile (cleanComps (joinComps parentDir (importStr ++ suffix))) &&
    rootPath.isPrefixOf (cleanComps (joinComps parentDir (importStr ++ suffix)))

end RP

namespace RP

/-- C1: `resolve_relative_path` returns the rendering of the cleaned
candidate of the first suffix (in list order) whose candidate is a regular
file lying under the root, and `none` when no suffix qualifies. -/
theorem resolve_relative_path_first_match (isFile : List String → Bool)
    (parentDir : List String) (importStr : String) (rootPath : List String)
    (suffixes : List String) :
    resolve_relative_path isFile parentDir importStr rootPath suffixes =
      (suffixes.find? (acceptsSuffix isFile parentDir importStr rootPath)).map
        (fun suffix => renderPath (cleanComps (joinComps parentDir (importStr ++ suffix)))) := by
  induction suffixes with
  | nil => rfl
  | cons s rest ih =>
    simp only [resolve_relative_path, List.find?, acceptsSuffix]
    by_cases h : (isFile (cleanComps (joinComps parentDir (importStr ++ s))) &&
        rootPath.isPrefixOf (cleanComps (joinComps parentDir (importStr ++ s)))) = true
    · simp [h]
    · simp only [Bool.not_eq_true] at h
      simp [h, ih]

end RP

namespace RP

/-! ### Properties of the natural comparator -/

theorem char_toNat_inj {a b : Char} (h : a.toNat = b.toNat) : a = b :=
  Char.ext (UInt32.ext h)

theorem cmpN_eq_iff {m n : Nat} : cmpN m n = Ordering.eq ↔ m = n := by
  unfold cmpN
  split_ifs <;> simp <;> omega

theorem cmpN_lt_iff {m n : Nat} : cmpN m n = Ordering.lt ↔ m < n := by
  unfold cmpN
  split_ifs <;> simp <;> omega

theorem cmpN_gt_iff {m n : Nat} : cmpN m n = Ordering.gt ↔ n < m := by
  unfold cmpN
  split_ifs <;> simp <;> omega

theorem cmpN_swap (m n : Nat) : cmpN n m = (cmpN m n).swap := by
  unfold cmpN
  split_ifs <;> first | rfl | (exfalso; omega)

theorem lexChars_eq_iff : ∀ {s t : List Char}, lexChars s t = Ordering.eq ↔ s = t := by
  intro s
  induction s with
  | nil => intro t; cases t <;> simp [lexChars]
  | cons a as ih =>
    intro t
    cases t with
    | nil => simp [lexChars]
    | cons b bs =>
      simp only [lexChars]
      cases h : cmpN a.toNat b.toNat with
      | eq =>
        have hab : a = b := char_toNat_inj (cmpN_eq_iff.mp h)
        subst hab
        simp [ih]
      | lt =>
        have hne : a ≠ b := by
          intro he
          subst he
          exact absurd (cmpN_lt_iff.mp h) (Nat.lt_irrefl _)
        simp [hne]
      | gt =>
        have hne : a ≠ b := by
          intro he
          subst he
          exact absurd (cmpN_gt_iff.mp h) (Nat.lt_irrefl _)
        simp [hne]

theorem lexChars_swap : ∀ (s t : List Char), lexChars t s = (lexChars s t).swap := by
  intro s
  induction s with
  | nil => intro t; cases t <;> simp [lexChars, Ordering.swap]
  | cons a as ih =>
    intro t
    cases t with
    | nil => simp [lexChars, Ordering.swap]
    | cons b bs =>
      simp only [lexChars]
      rw [cmpN_swap a.toNat b.toNat]
      cases h : cmpN a.toNat b.toNat <;> simp [Ordering.swap, ih]

theorem lexChars_lt_trans : ∀ {s t u : List Char}, lexChars s t = Ordering.lt →
    lexChars t u = Ordering.lt → lexChars s u = Ordering.lt := by
  intro s
  induction s with
  | nil =>
    intro t u h1 h2
    cases t with
    | nil => simp [lexChars] at h1
    | cons b bs =>
      cases u with
      | nil => simp [lexChars] at h2
      | cons c cs => simp [lexChars]
  | cons a as ih =>
    intro t u h1 h2
    cases t with
    | nil => simp [lexChars] at h1
    | cons b bs =>
      cases u with
      | nil => simp [lexChars] at h2
      | cons c cs =>
        simp only [lexChars] at h1 h2 ⊢
        cases hab : cmpN a.toNat b.toNat with
        | gt =>
          simp only [hab] at h1
          exact Ordering.noConfusion h1
        | lt =>
          cases hbc : cmpN b.toNat c.toNat with
          | gt =>
            simp only [hbc] at h2
            exact Ordering.noConfusion h2
          | lt =>
            have hlt : a.toNat < c.toNat :=
              Nat.lt_trans (cmpN_lt_iff.mp hab) (cmpN_lt_iff.mp hbc)
            simp [cmpN_lt_iff.mpr hlt]
          | eq =>
            have he := cmpN_eq_iff.mp hbc
            have hlt : a.toNat < c.toNat := by
              have := cmpN_lt_iff.mp hab
              omega
            simp [cmpN_lt_iff.mpr hlt]
        | eq =>
          simp only [hab] at h1
          have habq := cmpN_eq_iff.mp hab
          cases hbc : cmpN b.toNat c.toNat with
          | gt =>
            simp only [hbc] at h2
            exact Ordering.noConfusion h2
          | lt =>
            have hlt : a.toNat < c.toNat := by
              have := cmpN_lt_iff.mp hbc
              omega
            simp [cmpN_lt_iff.mpr hlt]
          | eq =>
            simp only [hbc] at h2
            have hq : cmpN a.toNat c.toNat = Ordering.eq :=
              cmpN_eq_iff.mpr (habq.trans (cmpN_eq_iff.mp hbc))
            simp only [hq]
            exact ih h1 h2

theorem tokCmp_eq_iff : ∀ {a b : NatTok}, tokCmp a b = Ordering.eq ↔ a = b := by
  intro a b
  cases a <;> cases b <;>
    simp only [tokCmp, NatTok.num.injEq, NatTok.txt.injEq] <;>
    first
      | exact cmpN_eq_iff
      | exact lexChars_eq_iff
      | simp

theorem tokCmp_swap (a b : NatTok) : tokCmp b a = (tokCmp a b).swap := by
  cases a <;> cases b <;> simp only [tokCmp] <;>
    first
      | rfl
      | exact cmpN_swap _ _
      | exact lexChars_swap _ _

theorem tokCmp_lt_trans : ∀ {a b c : NatTok}, tokCmp a b = Ordering.lt →
    tokCmp b c = Ordering.lt → tokCmp a c = Ordering.lt := by
  intro a b c h1 h2
  cases a <;> cases b <;> cases c <;>
    simp only [tokCmp] at h1 h2 ⊢ <;>
    first
      | rfl
      | exact (Ordering.noConfusion h1)
      | exact (Ordering.noConfusion h2)
      | exact cmpN_lt_iff.mpr (Nat.lt_trans (cmpN_lt_iff.mp h1) (cmpN_lt_iff.mp h2))
      | exact lexChars_lt_trans h1 h2

theorem lexToks_eq_iff : ∀ {s t : List NatTok}, lexToks s t = Ordering.eq ↔ s = t := by
  intro s
  induction s with
  | nil => intro t; cases t <;> simp [lexToks]
  | cons a as ih =>
    intro t
    cases t with
    | nil => simp [lexToks]
    | cons b bs =>
      simp only [lexToks]
      cases h : tokCmp a b with
      | eq =>
        have hab : a = b := tokCmp_eq_iff.mp h
        subst hab
        simp [ih]
      | lt =>
        have hne : a ≠ b := by
          intro he
          subst he
          rw [tokCmp_eq_iff.mpr rfl] at h
          exact Ordering.noConfusion h
        simp [hne]
      | gt =>
        have hne : a ≠ b := by
          intro he
          subst he
          rw [tokCmp_eq_iff.mpr rfl] at h
          exact Ordering.noConfusion h
        simp [hne]

theorem lexToks_swap : ∀ (s t : List NatTok), lexToks t s = (lexToks s t).swap := by
  intro s
  induction s with
  | nil => intro t; cases t <;> simp [lexToks, Ordering.swap]
  | cons a as ih =>
    intro t
    cases t with
    | nil => simp [lexToks, Ordering.swap]
    | cons b bs =>
      simp only [lexToks]
      rw [tokCmp_swap a b]
      cases h : tokCmp a b <;> simp [Ordering.swap, ih]

theorem lexToks_lt_trans : ∀ {s t u : List NatTok}, lexToks s t = Ordering.lt →
    lexToks t u = Ordering.lt → lexToks s u = Ordering.lt := by
  intro s
  induction s with
  | nil =>
    intro t u h1 h2
    cases t with
    | nil => simp [lexToks] at h1
    | cons b bs =>
      cases u with
      | nil => simp [lexToks] at h2
      | cons c cs => simp [lexToks]
  | cons a as ih =>
    intro t u h1 h2
    cases t with
    | nil => simp [lexToks] at h1
    | cons b bs =>
      cases u with
      | nil => simp [lexToks] at h2
      | cons c cs =>
        simp only [lexToks] at h1 h2 ⊢
        cases hab : tokCmp a b with
        | gt =>
          simp only [hab] at h1
          exact Ordering.noConfusion h1
        | lt =>
          cases hbc : tokCmp b c with
          | gt =>
            simp only [hbc] at h2
            exact Ordering.noConfusion h2
          | lt => simp [tokCmp_lt_trans hab hbc]
          | eq =>
            have he := tokCmp_eq_iff.mp hbc
            subst he
            simp [hab]
        | eq =>
          simp only [hab] at h1
          have he := tokCmp_eq_iff.mp hab
          subst he
          cases hbc : tokCmp a c with
          | gt =>
            simp only [hbc] at h2
            exact Ordering.noConfusion h2
          | lt => simp [hbc]
          | eq =>
            simp only [hbc] at h2
            simp only [hbc]
            exact ih h1 h2

theorem natural_compare_swap (a b : String) :
    natural_compare b a = (natural_compare a b).swap :=
  lexToks_swap (tokenize a.data) (tokenize b.data)

theorem natural_compare_lt_trans {a b c : String}
    (h1 : natural_compare a b = Ordering.lt) (h2 : natural_compare b c = Ordering.lt) :
    natural_compare a c = Ordering.lt :=
  lexToks_lt_trans h1 h2

theorem natural_compare_eq_tokenize {a b : String}
    (h : natural_compare a b = Ordering.eq) : tokenize a.data = tokenize b.data :=
  lexToks_eq_iff.mp h

theorem natLE_total (a b : String) : natLE a b ∨ natLE b a := by
  unfold natLE
  by_cases h : natural_compare a b = Ordering.gt
  · right
    rw [natural_compare_swap b a] at h
    intro hc
    rw [hc] at h
    exact Ordering.noConfusion h
  · left
    exact h

theorem natLE_trans {a b c : String} (h1 : natLE a b) (h2 : natLE b c) : natLE a c := by
  unfold natLE at h1 h2 ⊢
  cases hab : natural_compare a b with
  | gt => exact absurd hab h1
  | lt =>
    cases hbc : natural_compare b c with
    | gt => exact absurd hbc h2
    | lt =>
      rw [natural_compare_lt_trans hab hbc]
      exact Ordering.noConfusion
    | eq =>
      have ht := natural_compare_eq_tokenize hbc
      unfold natural_compare at hab ⊢
      rw [← ht, hab]
      exact Ordering.noConfusion
  | eq =>
    have ht := natural_compare_eq_tokenize hab
    unfold natural_compare at h2 ⊢
    rw [ht]
    exact h2

end RP

namespace RP

/-! ### C6: the Python literal rewrite -/

theorem takeWhile_dots (k : Nat) (l : List Char) (hl : l.head? ≠ some '.') :
    (List.replicate k '.' ++ l).takeWhile (fun c => decide (c = '.')) =
      List.replicate k '.' := by
  induction k with
  | zero =>
    simp only [List.replicate, List.nil_append]
    cases l with
    | nil => rfl
    | cons c cs =>
      have hc : c ≠ '.' := by
        intro he
        subst he
        exact hl rfl
      simp [List.takeWhile_cons, hc]
  | succ k ih =>
    rw [List.replicate_succ, List.cons_append]
    simp [List.takeWhile_cons, ih]

/-- C6: the rewrite from a Python import literal to a path fragment:
a literal with `n ≥ 1` leading dots (and a remainder not starting with a
dot) becomes `"../"` repeated `n-1` times followed by the remainder with
every `.` replaced by `/`; a literal with no leading dot just has every
`.` replaced by `/`. -/
theorem python_clean_import_spec (n : Nat) (rest : String) (m : String)
    (hn : 1 ≤ n) (hrest : rest.data.head? ≠ some '.')
    (hm : m.data.head? ≠ some '.') :
    python_clean_import (String.mk (List.replicate n '.' ++ rest.data)) =
      String.mk (repeatChars ['.', '.', '/'] (n - 1) ++ replaceDot rest.data) ∧
    python_clean_import m = String.mk (replaceDot m.data) := by
  constructor
  · unfold python_clean_import pythonCleanImportL
    have hdata : (String.mk (List.replicate n '.' ++ rest.data)).data =
        List.replicate n '.' ++ rest.data := rfl
    rw [hdata]
    have hhead : (List.replicate n '.' ++ rest.data).head? = some '.' := by
      cases n with
      | zero => omega
      | succ k => rw [List.replicate_succ, List.cons_append]; rfl
    rw [if_pos hhead, takeWhile_dots n rest.data hrest]
    simp only [List.length_replicate]
    have hdrop : (List.replicate n '.' ++ rest.data).drop n = rest.data := by
      have := List.drop_left (List.replicate n '.') rest.data
      rwa [List.length_replicate] at this
    rw [hdrop]
    by_cases h1 : n > 1
    · rw [if_pos h1]
    · rw [if_neg h1]
      have hn1 : n = 1 := by omega
      subst hn1
      simp [repeatChars]
  · unfold python_clean_import pythonCleanImportL
    rw [if_neg hm]

theorem python_clean_import_spec_witness :
    python_clean_import (String.mk (List.replicate 2 '.' ++ "pkg.mod".data)) =
        String.mk (repeatChars ['.', '.', '/'] (2 - 1) ++ replaceDot "pkg.mod".data) ∧
      python_clean_import "pkg.mod" = String.mk (replaceDot "pkg.mod".data) :=
  python_clean_import_spec 2 "pkg.mod" "pkg.mod" (by decide) (by decide) (by decide)

end RP

namespace RP

/-! ### Basic facts about the set model and the fuel bound -/

theorem insertOnce_eq (l : List String) (y : String) :
    insertOnce l y = l ++ (if y ∈ l then [] else [y]) := by
  unfold insertOnce
  split_ifs <;> simp

theorem mem_insertOnce {l : List String} {x y : String} :
    x ∈ insertOnce l y ↔ x = y ∨ x ∈ l := by
  unfold insertOnce
  split_ifs with h
  · constructor
    · exact Or.inr
    · rintro (rfl | hx) <;> assumption
  · simp [or_comm]

theorem self_mem_insertOnce (l : List String) (y : String) : y ∈ insertOnce l y :=
  mem_insertOnce.mpr (Or.inl rfl)

theorem subset_insertOnce (l : List String) (y : String) : l ⊆ insertOnce l y := by
  intro x hx
  exact mem_insertOnce.mpr (Or.inr hx)

theorem nodup_insertOnce {l : List String} (y : String) (h : l.Nodup) :
    (insertOnce l y).Nodup := by
  rw [insertOnce_eq]
  split_ifs with hy
  · simpa using h
  · rw [List.nodup_append]
    refine ⟨h, List.nodup_singleton y, ?_⟩
    intro a ha hay
    rw [List.mem_singleton] at hay
    exact hy (hay ▸ ha)

theorem foldl_insertOnce_mem :
    ∀ (l acc : List String) (x : String),
      x ∈ l.foldl insertOnce acc ↔ x ∈ acc ∨ x ∈ l := by
  intro l
  induction l with
  | nil => simp
  | cons a rest ih =>
    intro acc x
    simp only [List.foldl_cons, ih, mem_insertOnce, List.mem_cons]
    tauto

theorem foldl_insertOnce_nodup :
    ∀ (l acc : List String), acc.Nodup → (l.foldl insertOnce acc).Nodup := by
  intro l
  induction l with
  | nil => exact fun acc h => h
  | cons a rest ih =>
    intro acc h
    exact ih _ (nodup_insertOnce a h)

theorem foldl_insertOnce_of_nodup :
    ∀ (l acc : List String), (acc ++ l).Nodup → l.foldl insertOnce acc = acc ++ l := by
  intro l
  induction l with
  | nil => simp
  | cons a rest ih =>
    intro acc h
    have ha : a ∉ acc := by
      rw [List.nodup_append] at h
      intro hc
      exact h.2.2 hc (List.mem_cons_self a rest)
    simp only [List.foldl_cons, insertOnce, if_neg ha]
    rw [ih (acc ++ [a]) (by simpa using h)]
    simp

theorem mem_dedupFirst {l : List String} {x : String} :
    x ∈ dedupFirst l ↔ x ∈ l := by
  unfold dedupFirst
  rw [foldl_insertOnce_mem]
  simp

theorem nodup_dedupFirst (l : List String) : (dedupFirst l).Nodup :=
  foldl_insertOnce_nodup l [] List.nodup_nil

theorem dedupFirst_eq_self {l : List String} (h : l.Nodup) : dedupFirst l = l := by
  unfold dedupFirst
  rw [foldl_insertOnce_of_nodup l [] (by simpa using h)]
  simp

theorem depsOf_eq_of_lookup {g : DepGraph} {f : String} {ds : List String}
    (h : lookupG g f = some ds) : depsOf g f = ds := by
  unfold depsOf
  rw [h]
  rfl

theorem depsOf_eq_nil_of_lookup {g : DepGraph} {f : String}
    (h : lookupG g f = none) : depsOf g f = [] := by
  unfold depsOf
  rw [h]
  rfl

theorem key_mem_of_lookup {g : DepGraph} {f : String} {ds : List String}
    (h : lookupG g f = some ds) : ∃ e ∈ g, e.1 = f ∧ e.2 = ds := by
  unfold lookupG at h
  cases hf : g.find? (fun e => e.1 == f) with
  | none => rw [hf] at h; exact Option.noConfusion h
  | some e =>
    rw [hf] at h
    refine ⟨e, List.mem_of_find?_eq_some hf, ?_, ?_⟩
    · have := List.find?_some hf
      exact eq_of_beq this
    · exact Option.some.injEq _ _ ▸ (by simpa using h)

theorem knv_le_length (g : DepGraph) (vis : List String) :
    keysNotVisited g vis ≤ g.length :=
  List.countP_le_length _

theorem knv_anti {g : DepGraph} {vis vis' : List String} (h : vis ⊆ vis') :
    keysNotVisited g vis' ≤ keysNotVisited g vis := by
  unfold keysNotVisited
  refine List.countP_mono_left ?_
  intro e _ he
  simp only [decide_eq_true_eq] at he ⊢
  intro hc
  exact he (h hc)

theorem knv_cons_lt {g : DepGraph} {f : String} {ds : List String}
    (hl : lookupG g f = some ds) (vis : List String) (hv : f ∉ vis) :
    keysNotVisited g (f :: vis) < keysNotVisited g vis := by
  induction g with
  | nil => exact Option.noConfusion hl
  | cons e rest ih =>
    unfold keysNotVisited at ih ⊢
    rw [List.countP_cons, List.countP_cons]
    by_cases he : e.1 = f
    · have h1 : (decide (e.1 ∉ f :: vis)) = false := by
        simp [he]
      have h2 : (decide (e.1 ∉ vis)) = true := by
        simp [he, hv]
      have e1 : (if false = true then 1 else 0) = 0 := rfl
      have e2 : (if true = true then 1 else 0) = 1 := rfl
      rw [h1, h2, e1, e2]
      have hmono : List.countP (fun e => decide (e.1 ∉ f :: vis)) rest ≤
          List.countP (fun e => decide (e.1 ∉ vis)) rest := by
        refine List.countP_mono_left ?_
        intro a _ ha
        simp only [decide_eq_true_eq] at ha ⊢
        intro hc
        exact ha (List.mem_cons_of_mem f hc)
      omega
    · have hlk : lookupG rest f = some ds := by
        unfold lookupG at hl ⊢
        rw [List.find?_cons] at hl
        have : (e.1 == f) = false := by
          simp [he]
        rw [this] at hl
        exact hl
      have hdec : (decide (e.1 ∉ f :: vis)) = (decide (e.1 ∉ vis)) := by
        by_cases hev : e.1 ∈ vis
        · simp [hev]
        · simp [hev, List.mem_cons, he]
      rw [hdec]
      have := ih hlk
      omega

/-! ### Monotonicity of the traversal -/

theorem aux_mono_of {fuel : Nat} {g : DepGraph}
    (hc : ∀ f fin vis, fin ⊆ (collect_transitive_init_deps fuel f g fin vis).1 ∧
        vis ⊆ (collect_transitive_init_deps fuel f g fin vis).2) :
    ∀ ds fin vis, fin ⊆ (collectDepsAux fuel g ds fin vis).1 ∧
        vis ⊆ (collectDepsAux fuel g ds fin vis).2 := by
  intro ds
  induction ds with
  | nil =>
    intro fin vis
    simp only [collectDepsAux]
    exact ⟨fun x hx => hx, fun x hx => hx⟩
  | cons dep rest ih =>
    intro fin vis
    simp only [collectDepsAux]
    by_cases hinit : isInitFile dep = true
    · rw [if_pos hinit]
      have h1 := hc dep (insertOnce fin dep) vis
      have h2 := ih (collect_transitive_init_deps fuel dep g (insertOnce fin dep) vis).1
        (collect_transitive_init_deps fuel dep g (insertOnce fin dep) vis).2
      exact ⟨((subset_insertOnce fin dep).trans h1.1).trans h2.1, (h1.2.trans h2.2)⟩
    · rw [if_neg hinit]
      have h2 := ih (insertOnce fin dep) vis
      exact ⟨(subset_insertOnce fin dep).trans h2.1, h2.2⟩

theorem collect_mono (fuel : Nat) (g : DepGraph) :
    ∀ f fin vis, fin ⊆ (collect_transitive_init_deps fuel f g fin vis).1 ∧
        vis ⊆ (collect_transitive_init_deps fuel f g fin vis).2 := by
  induction fuel with
  | zero =>
    intro f fin vis
    simp only [collect_transitive_init_deps]
    exact ⟨fun x hx => hx, fun x hx => hx⟩
  | succ n ih =>
    intro f fin vis
    simp only [collect_transitive_init_deps]
    by_cases hv : f ∈ vis
    · rw [if_pos hv]
      exact ⟨fun x hx => hx, fun x hx => hx⟩
    · rw [if_neg hv]
      cases hl : lookupG g f with
      | none =>
        exact ⟨fun x hx => hx, fun x hx => List.mem_cons_of_mem f hx⟩
      | some ds =>
        have ha := aux_mono_of ih ds fin (f :: vis)
        exact ⟨ha.1, fun x hx => ha.2 (List.mem_cons_of_mem f hx)⟩

theorem aux_mono (fuel : Nat) (g : DepGraph) :
    ∀ ds fin vis, fin ⊆ (collectDepsAux fuel g ds fin vis).1 ∧
        vis ⊆ (collectDepsAux fuel g ds fin vis).2 :=
  aux_mono_of (collect_mono fuel g)

end RP

namespace RP

/-! ### Fuel irrelevance of the traversal (termination) -/

theorem aux_fuel_succ_of {fuel : Nat} {g : DepGraph}
    (hc : ∀ f fin vis, keysNotVisited g vis < fuel →
      collect_transitive_init_deps fuel f g fin vis =
        collect_transitive_init_deps (fuel + 1) f g fin vis) :
    ∀ ds fin vis, keysNotVisited g vis < fuel →
      collectDepsAux fuel g ds fin vis = collectDepsAux (fuel + 1) g ds fin vis := by
  intro ds
  induction ds with
  | nil =>
    intro fin vis _
    simp only [collectDepsAux]
  | cons dep rest ih =>
    intro fin vis hk
    simp only [collectDepsAux]
    by_cases hinit : isInitFile dep = true
    · rw [if_pos hinit, if_pos hinit]
      rw [← hc dep (insertOnce fin dep) vis hk]
      have hvmono := (collect_mono fuel g dep (insertOnce fin dep) vis).2
      have hk2 : keysNotVisited g
          (collect_transitive_init_deps fuel dep g (insertOnce fin dep) vis).2 < fuel :=
        Nat.lt_of_le_of_lt (knv_anti hvmono) hk
      exact ih _ _ hk2
    · rw [if_neg hinit, if_neg hinit]
      exact ih _ _ hk

theorem collect_fuel_succ {g : DepGraph} :
    ∀ fuel f fin vis, keysNotVisited g vis < fuel →
      collect_transitive_init_deps fuel f g fin vis =
        collect_transitive_init_deps (fuel + 1) f g fin vis := by
  intro fuel
  induction fuel with
  | zero =>
    intro f fin vis hk
    exact absurd hk (Nat.not_lt_zero _)
  | succ n ih =>
    intro f fin vis hk
    simp only [collect_transitive_init_deps]
    by_cases hv : f ∈ vis
    · rw [if_pos hv, if_pos hv]
    · rw [if_neg hv, if_neg hv]
      cases hl : lookupG g f with
      | none => rfl
      | some ds =>
        have hk2 : keysNotVisited g (f :: vis) < n := by
          have := knv_cons_lt hl vis hv
          omega
        exact aux_fuel_succ_of ih ds fin (f :: vis) hk2

theorem collect_fuel_add {g : DepGraph} {fuel : Nat} (f : String)
    (fin vis : List String) (hk : keysNotVisited g vis < fuel) :
    ∀ k, collect_transitive_init_deps (fuel + k) f g fin vis =
      collect_transitive_init_deps fuel f g fin vis := by
  intro k
  induction k with
  | zero => rfl
  | succ m ih =>
    have hk2 : keysNotVisited g vis < fuel + m := by omega
    have hstep := collect_fuel_succ (fuel + m) f fin vis hk2
    have he : fuel + (m + 1) = fuel + m + 1 := by omega
    rw [he, ← hstep, ih]

end RP

namespace RP

/-- C9: the transitive init-dependency collection terminates on every
graph, cyclic ones included: the visited set bounds the traversal, so any
fuel beyond the number of unvisited graph keys computes the same result as
the bound itself — the recursion never needs unbounded depth. -/
theorem collect_transitive_init_deps_terminates (g : DepGraph) (f : String)
    (fin vis : List String) (fuel : Nat)
    (hk : keysNotVisited g vis < fuel) :
    collect_transitive_init_deps fuel f g fin vis =
      collect_transitive_init_deps (keysNotVisited g vis + 1) f g fin vis := by
  have hb : keysNotVisited g vis < keysNotVisited g vis + 1 := Nat.lt_succ_self _
  have h1 := collect_fuel_add f fin vis hb (fuel - (keysNotVisited g vis + 1))
  have he : keysNotVisited g vis + 1 + (fuel - (keysNotVisited g vis + 1)) = fuel := by
    omega
  rw [he] at h1
  exact h1

/-- C9 witness: a two-cycle between `__init__.py` files; the bounded-fuel
run coincides with a deeper run. -/
theorem collect_transitive_init_deps_terminates_witness :
    keysNotVisited
        [("/r/a/__init__.py", ["/r/b/__init__.py"]),
         ("/r/b/__init__.py", ["/r/a/__init__.py"])] [] < 7 ∧
      collect_transitive_init_deps 7 "/r/a/__init__.py"
          [("/r/a/__init__.py", ["/r/b/__init__.py"]),
           ("/r/b/__init__.py", ["/r/a/__init__.py"])] [] [] =
        collect_transitive_init_deps
          (keysNotVisited
            [("/r/a/__init__.py", ["/r/b/__init__.py"]),
             ("/r/b/__init__.py", ["/r/a/__init__.py"])] [] + 1)
          "/r/a/__init__.py"
          [("/r/a/__init__.py", ["/r/b/__init__.py"]),
           ("/r/b/__init__.py", ["/r/a/__init__.py"])] [] [] :=
  ⟨by decide,
    collect_transitive_init_deps_terminates
      [("/r/a/__init__.py", ["/r/b/__init__.py"]),
       ("/r/b/__init__.py", ["/r/a/__init__.py"])]
      "/r/a/__init__.py" [] [] 7 (by decide)⟩

end RP

namespace RP

/-! ### The traversal contract -/

theorem closedAt_mono {g : DepGraph} {fin fin' vis vis' : List String} {v : String}
    (hf : fin ⊆ fin') (hv : vis ⊆ vis') (h : ClosedAt g fin vis v) :
    ClosedAt g fin' vis' v := by
  intro d hd
  obtain ⟨h1, h2⟩ := h d hd
  exact ⟨hf h1, fun hi => hv (h2 hi)⟩

theorem auxSpec_of_collectSpec {fuel : Nat} {g : DepGraph}
    (hc : CollectSpec fuel g) : AuxSpec fuel g := by
  unfold AuxSpec
  intro ds
  induction ds with
  | nil =>
    intro fin vis hk
    simp only [collectDepsAux]
    refine ⟨⟨[], by simp, List.nodup_nil, by simp⟩, fun x hx => hx, by simp, ?_⟩
    intro v hv hnv
    exact absurd hv hnv
  | cons dep rest ih =>
    intro fin vis hk
    simp only [collectDepsAux]
    by_cases hinit : isInitFile dep = true
    · rw [if_pos hinit]
      obtain ⟨⟨ex1, he1, hn1, hx1⟩, hv1, hm1, hcl1⟩ := hc dep (insertOnce fin dep) vis hk
      have hk2 : keysNotVisited g
          (collect_transitive_init_deps fuel dep g (insertOnce fin dep) vis).2 < fuel :=
        Nat.lt_of_le_of_lt (knv_anti hv1) hk
      obtain ⟨⟨ex2, he2, hn2, hx2⟩, hv2, hm2, hcl2⟩ :=
        ih (collect_transitive_init_deps fuel dep g (insertOnce fin dep) vis).1
          (collect_transitive_init_deps fuel dep g (insertOnce fin dep) vis).2 hk2
      have hio : insertOnce fin dep = fin ++ (if dep ∈ fin then [] else [dep]) :=
        insertOnce_eq fin dep
      refine ⟨⟨(if dep ∈ fin then [] else [dep]) ++ ex1 ++ ex2, ?_, ?_, ?_⟩, ?_, ?_, ?_⟩
      · rw [he2, he1, hio]
        simp [List.append_assoc]
      · -- Nodup of the combined extension
        rw [List.nodup_append, List.nodup_append]
        refine ⟨⟨?_, hn1, ?_⟩, hn2, ?_⟩
        · split_ifs <;> simp
        · intro a ha hax
          have hnotin := (hx1 a hax).1
          split_ifs at ha with hdep
          · cases ha
          · rw [List.mem_singleton] at ha
            rw [ha] at hnotin
            exact hnotin (self_mem_insertOnce fin dep)
        · intro a ha hax
          have hnotin := (hx2 a hax).1
          rw [he1] at hnotin
          rcases List.mem_append.mp ha with ha1 | ha1
          · split_ifs at ha1 with hdep
            · cases ha1
            · rw [List.mem_singleton] at ha1
              rw [ha1] at hnotin
              exact hnotin (List.mem_append_left ex1 (self_mem_insertOnce fin dep))
          · exact hnotin (List.mem_append_right _ ha1)
      · intro x hxm
        rcases List.mem_append.mp hxm with hxm1 | hxm2
        · rcases List.mem_append.mp hxm1 with hxi | hxe1
          · split_ifs at hxi with hdep
            · cases hxi
            · rw [List.mem_singleton] at hxi
              rw [hxi]
              exact ⟨hdep, Or.inl (List.mem_cons_self dep rest)⟩
          · obtain ⟨hnotin, hreach⟩ := hx1 x hxe1
            exact ⟨fun hxf => hnotin ((subset_insertOnce fin dep) hxf),
              Or.inr ⟨dep, List.mem_cons_self dep rest, hinit, hreach⟩⟩
        · obtain ⟨hnotin, hsem⟩ := hx2 x hxm2
          rw [he1] at hnotin
          refine ⟨fun hxf => hnotin
            (List.mem_append_left ex1 ((subset_insertOnce fin dep) hxf)), ?_⟩
          rcases hsem with hmem | ⟨d, hd, hdinit, hreach⟩
          · exact Or.inl (List.mem_cons_of_mem dep hmem)
          · exact Or.inr ⟨d, List.mem_cons_of_mem dep hd, hdinit, hreach⟩
      · exact hv1.trans hv2
      · intro d hd
        rcases List.mem_cons.mp hd with hdd | hdr
        · subst hdd
          constructor
          · rw [he2, he1]
            exact List.mem_append_left _ (List.mem_append_left _ (self_mem_insertOnce fin d))
          · intro _
            exact hv2 hm1
        · exact hm2 d hdr
      · intro v hvv hnv
        by_cases hvst : v ∈ (collect_transitive_init_deps fuel dep g (insertOnce fin dep) vis).2
        · have hclosed := hcl1 v hvst hnv
          refine closedAt_mono ?_ hv2 hclosed
          rw [he2]
          exact fun x hx => List.mem_append_left _ hx
        · exact hcl2 v hvv hvst
    · rw [if_neg hinit]
      obtain ⟨⟨ex2, he2, hn2, hx2⟩, hv2, hm2, hcl2⟩ := ih (insertOnce fin dep) vis hk
      have hio : insertOnce fin dep = fin ++ (if dep ∈ fin then [] else [dep]) :=
        insertOnce_eq fin dep
      refine ⟨⟨(if dep ∈ fin then [] else [dep]) ++ ex2, ?_, ?_, ?_⟩, hv2, ?_, ?_⟩
      · rw [he2, hio]
        simp [List.append_assoc]
      · rw [List.nodup_append]
        refine ⟨?_, hn2, ?_⟩
        · split_ifs <;> simp
        · intro a ha hax
          have hnotin := (hx2 a hax).1
          split_ifs at ha with hdep
          · cases ha
          · rw [List.mem_singleton] at ha
            rw [ha] at hnotin
            exact hnotin (self_mem_insertOnce fin dep)
      · intro x hxm
        rcases List.mem_append.mp hxm with hxi | hxe2
        · split_ifs at hxi with hdep
          · cases hxi
          · rw [List.mem_singleton] at hxi
            rw [hxi]
            exact ⟨hdep, Or.inl (List.mem_cons_self dep rest)⟩
        · obtain ⟨hnotin, hsem⟩ := hx2 x hxe2
          refine ⟨fun hxf => hnotin ((subset_insertOnce fin dep) hxf), ?_⟩
          rcases hsem with hmem | ⟨d, hd, hdinit, hreach⟩
          · exact Or.inl (List.mem_cons_of_mem dep hmem)
          · exact Or.inr ⟨d, List.mem_cons_of_mem dep hd, hdinit, hreach⟩
      · intro d hd
        rcases List.mem_cons.mp hd with hdd | hdr
        · subst hdd
          constructor
          · rw [he2]
            exact List.mem_append_left _ (self_mem_insertOnce fin d)
          · intro habs
            exact absurd habs hinit
        · exact hm2 d hdr
      · intro v hvv hnv
        exact hcl2 v hvv hnv

theorem collectSpec_holds (fuel : Nat) (g : DepGraph) : CollectSpec fuel g := by
  induction fuel with
  | zero =>
    intro f fin vis hk
    exact absurd hk (Nat.not_lt_zero _)
  | succ n ih =>
    have haux := auxSpec_of_collectSpec ih
    intro f fin vis hk
    simp only [collect_transitive_init_deps]
    by_cases hv : f ∈ vis
    · rw [if_pos hv]
      refine ⟨⟨[], by simp, List.nodup_nil, by simp⟩, fun x hx => hx, hv, ?_⟩
      intro v hvv hnv
      exact absurd hvv hnv
    · rw [if_neg hv]
      cases hl : lookupG g f with
      | none =>
        refine ⟨⟨[], by simp, List.nodup_nil, by simp⟩,
          fun x hx => List.mem_cons_of_mem f hx, List.mem_cons_self f vis, ?_⟩
        intro v hvv hnv
        have hvf : v = f := by
          rcases List.mem_cons.mp hvv with h | h
          · exact h
          · exact absurd h hnv
        subst hvf
        intro d hd
        rw [depsOf_eq_nil_of_lookup hl] at hd
        cases hd
      | some ds =>
        have hk2 : keysNotVisited g (f :: vis) < n := by
          have := knv_cons_lt hl vis hv
          omega
        obtain ⟨⟨ex, he, hn, hx⟩, hvs, hm3, hcl⟩ := haux ds fin (f :: vis) hk2
        refine ⟨⟨ex, he, hn, ?_⟩, ?_, ?_, ?_⟩
        · intro x hxm
          obtain ⟨hnf, hsem⟩ := hx x hxm
          refine ⟨hnf, ?_⟩
          rcases hsem with hmem | ⟨d, hd, hdinit, hreach⟩
          · exact InitReach.direct f x (by rw [depsOf_eq_of_lookup hl]; exact hmem)
          · exact InitReach.step f d x (by rw [depsOf_eq_of_lookup hl]; exact hd) hdinit hreach
        · exact fun x hxv => hvs (List.mem_cons_of_mem f hxv)
        · exact hvs (List.mem_cons_self f vis)
        · intro v hvv hnv
          by_cases hvf : v = f
          · subst hvf
            intro d hd
            rw [depsOf_eq_of_lookup hl] at hd
            exact hm3 d hd
          · refine hcl v hvv ?_
            intro hcmem
            rcases List.mem_cons.mp hcmem with h | h
            · exact hvf h
            · exact hnv h

end RP

namespace RP

/-! ### Exact characterization of the expansion -/

theorem closed_system_complete {g : DepGraph} {F V : List String}
    (hall : ∀ v ∈ V, ClosedAt g F V v) :
    ∀ {f x : String}, InitReach g f x → f ∈ V → x ∈ F := by
  intro f x hr
  induction hr with
  | direct f d hd =>
    intro hf
    exact (hall f hf d hd).1
  | step f d x hd hdinit hr ih =>
    intro hf
    have h1 := hall f hf d hd
    exact ih (h1.2 hdinit)

theorem mem_collect_top {g : DepGraph} {fuel : Nat} (f x : String) (fin : List String)
    (hk : keysNotVisited g [] < fuel) :
    x ∈ (collect_transitive_init_deps fuel f g fin []).1 ↔
      x ∈ fin ∨ InitReach g f x := by
  obtain ⟨⟨ex, he, _, hx⟩, _, hm, hcl⟩ := collectSpec_holds fuel g f fin [] hk
  constructor
  · intro hmem
    rw [he] at hmem
    rcases List.mem_append.mp hmem with h | h
    · exact Or.inl h
    · exact Or.inr (hx x h).2
  · intro hmem
    rcases hmem with h | h
    · rw [he]
      exact List.mem_append_left _ h
    · have hall : ∀ v ∈ (collect_transitive_init_deps fuel f g fin []).2,
          ClosedAt g (collect_transitive_init_deps fuel f g fin []).1
            (collect_transitive_init_deps fuel f g fin []).2 v :=
        fun v hv => hcl v hv (by simp)
      exact closed_system_complete hall h hm

theorem collect_top_eq_of_closed {g : DepGraph} {fuel : Nat} {f : String}
    {fin : List String} (hk : keysNotVisited g [] < fuel)
    (hsub : ∀ x, InitReach g f x → x ∈ fin) :
    (collect_transitive_init_deps fuel f g fin []).1 = fin := by
  obtain ⟨⟨ex, he, _, hx⟩, _, _, _⟩ := collectSpec_holds fuel g f fin [] hk
  have hex : ex = [] := by
    rw [List.eq_nil_iff_forall_not_mem]
    intro a ha
    exact (hx a ha).1 (hsub a (hx a ha).2)
  rw [he, hex, List.append_nil]

theorem collect_nodup_top {g : DepGraph} {fuel : Nat} (f : String) {fin : List String}
    (hk : keysNotVisited g [] < fuel) (hnd : fin.Nodup) :
    (collect_transitive_init_deps fuel f g fin []).1.Nodup := by
  obtain ⟨⟨ex, he, hn, hx⟩, _, _, _⟩ := collectSpec_holds fuel g f fin [] hk
  rw [he, List.nodup_append]
  exact ⟨hnd, hn, fun a ha hax => (hx a hax).1 ha⟩

theorem foldStep_mem (g : DepGraph) :
    ∀ (l fin : List String) (x : String),
      (x ∈ l.foldl
        (fun fin dep =>
          if isInitFile dep then
            (collect_transitive_init_deps (g.length + 1) dep g fin []).1
          else fin) fin ↔
        x ∈ fin ∨ ∃ d ∈ l, isInitFile d = true ∧ InitReach g d x) := by
  intro l
  induction l with
  | nil => simp
  | cons dep rest ih =>
    intro fin x
    simp only [List.foldl_cons]
    rw [ih]
    have hk : keysNotVisited g [] < g.length + 1 := Nat.lt_succ_of_le (knv_le_length g [])
    by_cases hinit : isInitFile dep = true
    · rw [if_pos hinit, mem_collect_top dep x fin hk]
      constructor
      · rintro ((hf | hr) | ⟨d, hd, hdi, hre⟩)
        · exact Or.inl hf
        · exact Or.inr ⟨dep, List.mem_cons_self dep rest, hinit, hr⟩
        · exact Or.inr ⟨d, List.mem_cons_of_mem dep hd, hdi, hre⟩
      · rintro (hf | ⟨d, hd, hdi, hre⟩)
        · exact Or.inl (Or.inl hf)
        · rcases List.mem_cons.mp hd with heq | hd2
          · rw [heq] at hre
            exact Or.inl (Or.inr hre)
          · exact Or.inr ⟨d, hd2, hdi, hre⟩
    · rw [if_neg hinit]
      constructor
      · rintro (hf | ⟨d, hd, hdi, hre⟩)
        · exact Or.inl hf
        · exact Or.inr ⟨d, List.mem_cons_of_mem dep hd, hdi, hre⟩
      · rintro (hf | ⟨d, hd, hdi, hre⟩)
        · exact Or.inl hf
        · rcases List.mem_cons.mp hd with heq | hd2
          · rw [heq] at hdi
            exact absurd hdi hinit
          · exact Or.inr ⟨d, hd2, hdi, hre⟩

theorem foldStep_nodup (g : DepGraph) :
    ∀ (l fin : List String), fin.Nodup →
      (l.foldl
        (fun fin dep =>
          if isInitFile dep then
            (collect_transitive_init_deps (g.length + 1) dep g fin []).1
          else fin) fin).Nodup := by
  intro l
  induction l with
  | nil => exact fun fin h => h
  | cons dep rest ih =>
    intro fin h
    simp only [List.foldl_cons]
    by_cases hinit : isInitFile dep = true
    · rw [if_pos hinit]
      have hk : keysNotVisited g [] < g.length + 1 := Nat.lt_succ_of_le (knv_le_length g [])
      exact ih _ (collect_nodup_top dep hk h)
    · rw [if_neg hinit]
      exact ih _ h

theorem foldStep_subset (g : DepGraph) :
    ∀ (l fin : List String), fin ⊆
      l.foldl
        (fun fin dep =>
          if isInitFile dep then
            (collect_transitive_init_deps (g.length + 1) dep g fin []).1
          else fin) fin := by
  intro l
  induction l with
  | nil => exact fun fin x hx => hx
  | cons dep rest ih =>
    intro fin
    simp only [List.foldl_cons]
    by_cases hinit : isInitFile dep = true
    · rw [if_pos hinit]
      exact ((collect_mono (g.length + 1) g dep fin []).1).trans (ih _)
    · rw [if_neg hinit]
      exact ih _

theorem mem_expandEntryDeps {g : DepGraph} {direct : List String} {x : String} :
    x ∈ expandEntryDeps g direct ↔ SemSet g direct x := by
  unfold expandEntryDeps SemSet
  rw [foldStep_mem, mem_dedupFirst]

theorem nodup_expandEntryDeps (g : DepGraph) (direct : List String) :
    (expandEntryDeps g direct).Nodup :=
  foldStep_nodup g direct (dedupFirst direct) (nodup_dedupFirst direct)

/-! ### The sort step -/

theorem sorted_insertionSort_natLE (l : List String) :
    List.Sorted natLE (List.insertionSort natLE l) := by
  letI : IsTotal String natLE := ⟨natLE_total⟩
  letI : IsTrans String natLE := ⟨fun a b c h1 h2 => natLE_trans h1 h2⟩
  exact List.sorted_insertionSort natLE l

theorem mem_insertionSort_natLE {l : List String} {x : String} :
    x ∈ List.insertionSort natLE l ↔ x ∈ l :=
  List.mem_insertionSort natLE

theorem nodup_insertionSort_natLE {l : List String} (h : l.Nodup) :
    (List.insertionSort natLE l).Nodup :=
  (List.perm_insertionSort natLE l).nodup_iff.mpr h

theorem find?_map_entry (σ : (String × List String) → List String) :
    ∀ (l : DepGraph) (f : String),
      (l.map (fun e => (e.1, σ e))).find? (fun e => e.1 == f) =
        (l.find? (fun e => e.1 == f)).map (fun e => (e.1, σ e)) := by
  intro l f
  induction l with
  | nil => rfl
  | cons e rest ih =>
    simp only [List.map_cons, List.find?_cons]
    by_cases he : (e.1 == f) = true
    · rw [he]
      rfl
    · rw [Bool.of_not_eq_true he]
      exact ih

theorem lookupG_expand (g : DepGraph) (f : String) :
    lookupG (expand_init_dependencies g) f =
      (lookupG g f).map (fun ds => List.insertionSort natLE (expandEntryDeps g ds)) := by
  unfold expand_init_dependencies lookupG
  rw [find?_map_entry (fun e => List.insertionSort natLE (expandEntryDeps g e.2)) g f]
  cases g.find? (fun e => e.1 == f) <;> rfl

end RP

namespace RP

/-! ### Idempotence of the init expansion -/

theorem depsOf_expand (g : DepGraph) (v : String) :
    depsOf (expand_init_dependencies g) v =
      match lookupG g v with
      | some ds => List.insertionSort natLE (expandEntryDeps g ds)
      | none => [] := by
  unfold depsOf
  rw [lookupG_expand]
  cases lookupG g v <;> rfl

theorem initReach_trans {g : DepGraph} {a b c : String} (h1 : InitReach g a b) :
    isInitFile b = true → InitReach g b c → InitReach g a c := by
  induction h1 with
  | direct f d hd =>
    intro hb h2
    exact InitReach.step f d c hd hb h2
  | step f d x hd hdinit _ ih =>
    intro hb h2
    exact InitReach.step f d c hd hdinit (ih hb h2)

theorem semSet_closed {g : DepGraph} {direct : List String} {d x : String}
    (hd : SemSet g direct d) (hdi : isInitFile d = true) (hr : InitReach g d x) :
    SemSet g direct x := by
  rcases hd with hmem | ⟨e, he, hei, her⟩
  · exact Or.inr ⟨d, hmem, hdi, hr⟩
  · exact Or.inr ⟨e, he, hei, initReach_trans her hdi hr⟩

theorem semSet_of_mem_expand_deps {g : DepGraph} {direct : List String} {d y : String}
    (hd : SemSet g direct d) (hdi : isInitFile d = true)
    (hy : y ∈ depsOf (expand_init_dependencies g) d) :
    SemSet g direct y := by
  rw [depsOf_expand] at hy
  cases hl : lookupG g d with
  | none =>
    rw [hl] at hy
    cases hy
  | some ds =>
    rw [hl] at hy
    rw [mem_insertionSort_natLE, mem_expandEntryDeps] at hy
    have hds : depsOf g d = ds := depsOf_eq_of_lookup hl
    rcases hy with hmem | ⟨e, he, hei, her⟩
    · exact semSet_closed hd hdi (InitReach.direct d y (by rw [hds]; exact hmem))
    · exact semSet_closed hd hdi (InitReach.step d e y (by rw [hds]; exact he) hei her)

theorem semSet_transfer {g : DepGraph} {direct : List String} {d x : String}
    (hr : InitReach (expand_init_dependencies g) d x) :
    isInitFile d = true → SemSet g direct d → SemSet g direct x := by
  induction hr with
  | direct f y hy =>
    intro hfi hfs
    exact semSet_of_mem_expand_deps hfs hfi hy
  | step f e x he hei _ ih =>
    intro hfi hfs
    exact ih hei (semSet_of_mem_expand_deps hfs hfi he)

theorem foldStep_eq_of_closed (gq : DepGraph) :
    ∀ (l fin : List String),
      (∀ d ∈ l, isInitFile d = true → ∀ x, InitReach gq d x → x ∈ fin) →
      l.foldl
        (fun fin dep =>
          if isInitFile dep then
            (collect_transitive_init_deps (gq.length + 1) dep gq fin []).1
          else fin) fin = fin := by
  intro l
  induction l with
  | nil =>
    intro fin _
    rfl
  | cons dep rest ih =>
    intro fin h
    simp only [List.foldl_cons]
    by_cases hinit : isInitFile dep = true
    · rw [if_pos hinit]
      have hk : keysNotVisited gq [] < gq.length + 1 :=
        Nat.lt_succ_of_le (knv_le_length gq [])
      rw [collect_top_eq_of_closed hk (h dep (List.mem_cons_self dep rest) hinit)]
      exact ih fin (fun d hd hdi x hr => h d (List.mem_cons_of_mem dep hd) hdi x hr)
    · rw [if_neg hinit]
      exact ih fin (fun d hd hdi x hr => h d (List.mem_cons_of_mem dep hd) hdi x hr)

theorem expandEntryDeps_expand_fixed {g : DepGraph} {direct D : List String}
    (hnd : D.Nodup) (hmemD : ∀ x, x ∈ D ↔ SemSet g direct x) :
    expandEntryDeps (expand_init_dependencies g) D = D := by
  unfold expandEntryDeps
  rw [dedupFirst_eq_self hnd]
  apply foldStep_eq_of_closed
  intro d hd hdi x hrx
  rw [hmemD]
  exact semSet_transfer hrx hdi ((hmemD d).mp hd)

theorem insertionSort_natLE_idem (l : List String) :
    List.insertionSort natLE (List.insertionSort natLE l) = List.insertionSort natLE l :=
  List.Sorted.insertionSort_eq (sorted_insertionSort_natLE l)

end RP

namespace RP

/-- C7: `expand_init` is idempotent: expanding an already expanded
graph changes nothing, for every dependency graph. -/
theorem expand_init_dependencies_idempotent (g : DepGraph) :
    expand_init_dependencies (expand_init_dependencies g) = expand_init_dependencies g := by
  have h1 : expand_init_dependencies (expand_init_dependencies g) =
      (expand_init_dependencies g).map
        (fun e => (e.1, List.insertionSort natLE
          (expandEntryDeps (expand_init_dependencies g) e.2))) := rfl
  rw [h1]
  have h2 : ∀ e ∈ expand_init_dependencies g,
      (e.1, List.insertionSort natLE (expandEntryDeps (expand_init_dependencies g) e.2)) =
        id e := by
    intro e he
    obtain ⟨e0, he0, heq⟩ := List.mem_map.mp he
    rw [← heq]
    have hnd : (List.insertionSort natLE (expandEntryDeps g e0.2)).Nodup :=
      nodup_insertionSort_natLE (nodup_expandEntryDeps g e0.2)
    have hmemD : ∀ x, x ∈ List.insertionSort natLE (expandEntryDeps g e0.2) ↔
        SemSet g e0.2 x := by
      intro x
      rw [mem_insertionSort_natLE, mem_expandEntryDeps]
    show (e0.1, List.insertionSort natLE (expandEntryDeps (expand_init_dependencies g)
      (List.insertionSort natLE (expandEntryDeps g e0.2)))) = _
    rw [expandEntryDeps_expand_fixed hnd hmemD, insertionSort_natLE_idem]
    rfl
  rw [List.map_congr_left h2, List.map_id]

end RP

namespace RP

/-! ### Assembler support lemmas -/

theorem resolve_some_good {isFile : List String → Bool} {pd : List String} {imp : String}
    {rootPath : List String} {d : String} :
    ∀ {sfx : List String},
      resolve_relative_path isFile pd imp rootPath sfx = some d →
      ∃ c, d = renderPath c ∧ isFile c = true ∧ rootPath.isPrefixOf c = true := by
  intro sfx
  induction sfx with
  | nil =>
    intro h
    exact Option.noConfusion h
  | cons s rest ih =>
    intro h
    simp only [resolve_relative_path] at h
    by_cases hc : (isFile (cleanComps (joinComps pd (imp ++ s))) &&
        rootPath.isPrefixOf (cleanComps (joinComps pd (imp ++ s)))) = true
    · rw [if_pos hc] at h
      obtain ⟨h1, h2⟩ := Bool.and_eq_true_iff.mp hc
      exact ⟨cleanComps (joinComps pd (imp ++ s)), (Option.some.inj h).symm, h1, h2⟩
    · rw [if_neg hc] at h
      exact ih h

theorem fileDeps_good {isFile : List String → Bool} {rootPath : List String}
    {cfg : LangConfig} {f : String} :
    ∀ d ∈ fileDeps isFile rootPath cfg f,
      ∃ c, d = renderPath c ∧ isFile c = true ∧ rootPath.isPrefixOf c = true := by
  intro d hd
  unfold fileDeps at hd
  obtain ⟨lit, _, hres⟩ := List.mem_filterMap.mp hd
  exact resolve_some_good hres

theorem entries_good_insertAppend {P : String → Prop} :
    ∀ {g : DepGraph} {k : String} {ds : List String},
      (∀ e ∈ g, ∀ d ∈ e.2, P d) → (∀ d ∈ ds, P d) →
      ∀ e ∈ insertAppend g k ds, ∀ d ∈ e.2, P d := by
  intro g
  induction g with
  | nil =>
    intro k ds _ hds e he
    simp only [insertAppend, List.mem_singleton] at he
    rw [he]
    exact hds
  | cons a rest ih =>
    intro k ds hg hds e he
    simp only [insertAppend] at he
    by_cases hak : (a.1 == k) = true
    · rw [if_pos hak] at he
      rcases List.mem_cons.mp he with heq | hrest
      · intro d hd
        rw [heq] at hd
        rcases List.mem_append.mp hd with h1 | h1
        · exact hg a (List.mem_cons_self a rest) d h1
        · exact hds d h1
      · exact hg e (List.mem_cons_of_mem a hrest)
    · rw [if_neg hak] at he
      rcases List.mem_cons.mp he with heq | hrest
      · rw [heq]
        exact hg a (List.mem_cons_self a rest)
      · exact ih (fun x hx => hg x (List.mem_cons_of_mem a hx)) hds e hrest

end RP

namespace RP

theorem depsOf_cons_hit {e : String × List String} {rest : DepGraph} {k : String}
    (h : (e.1 == k) = true) : depsOf (e :: rest) k = e.2 := by
  unfold depsOf lookupG
  rw [List.find?_cons]
  simp [h]

theorem depsOf_cons_miss {e : String × List String} {rest : DepGraph} {k : String}
    (h : (e.1 == k) = false) : depsOf (e :: rest) k = depsOf rest k := by
  unfold depsOf lookupG
  rw [List.find?_cons]
  simp [h]

theorem mem_depsOf_insertAppend_self {x : String} :
    ∀ {g : DepGraph} {k : String} {ds : List String},
      x ∈ ds → x ∈ depsOf (insertAppend g k ds) k := by
  intro g
  induction g with
  | nil =>
    intro k ds h
    simp only [insertAppend]
    rw [depsOf_cons_hit (show (((k, ds) : String × List String).1 == k) = true by simp)]
    exact h
  | cons a rest ih =>
    intro k ds h
    simp only [insertAppend]
    by_cases hak : (a.1 == k) = true
    · rw [if_pos hak,
        depsOf_cons_hit (show (((a.1, a.2 ++ ds) : String × List String).1 == k) = true from hak)]
      exact List.mem_append_right _ h
    · rw [if_neg hak, depsOf_cons_miss (Bool.of_not_eq_true hak)]
      exact ih h

theorem mem_depsOf_insertAppend_mono {x : String} :
    ∀ {g : DepGraph} {k kq : String} {ds : List String},
      x ∈ depsOf g kq → x ∈ depsOf (insertAppend g k ds) kq := by
  intro g
  induction g with
  | nil =>
    intro k kq ds h
    simp only [depsOf, lookupG, List.find?_nil, Option.map_none, Option.getD_none] at h
    cases h
  | cons a rest ih =>
    intro k kq ds h
    simp only [insertAppend]
    by_cases hak : (a.1 == k) = true
    · rw [if_pos hak]
      by_cases hakq : (a.1 == kq) = true
      · rw [depsOf_cons_hit
          (show (((a.1, a.2 ++ ds) : String × List String).1 == kq) = true from hakq)]
        rw [depsOf_cons_hit hakq] at h
        exact List.mem_append_left _ h
      · rw [depsOf_cons_miss
          (show (((a.1, a.2 ++ ds) : String × List String).1 == kq) = false
            from Bool.of_not_eq_true hakq)]
        rw [depsOf_cons_miss (Bool.of_not_eq_true hakq)] at h
        exact h
    · rw [if_neg hak]
      by_cases hakq : (a.1 == kq) = true
      · rw [depsOf_cons_hit hakq]
        rw [depsOf_cons_hit hakq] at h
        exact h
      · rw [depsOf_cons_miss (Bool.of_not_eq_true hakq)]
        rw [depsOf_cons_miss (Bool.of_not_eq_true hakq)] at h
        exact ih h

theorem mem_depsOf_foldFiles_preserve (isFile : List String → Bool)
    (rootPath : List String) (cfg : LangConfig) :
    ∀ (l : List String) (g : DepGraph) (f x : String), x ∈ depsOf g f →
      x ∈ depsOf (l.foldl
        (fun g f =>
          if (fileDeps isFile rootPath cfg f).isEmpty then g
          else insertAppend g f (fileDeps isFile rootPath cfg f)) g) f := by
  intro l
  induction l with
  | nil => exact fun g f x h => h
  | cons a restl ih =>
    intro g f x h
    simp only [List.foldl_cons]
    apply ih
    by_cases he : (fileDeps isFile rootPath cfg a).isEmpty = true
    · rw [if_pos he]
      exact h
    · rw [if_neg he]
      exact mem_depsOf_insertAppend_mono h

theorem mem_depsOf_foldFiles_intro (isFile : List String → Bool)
    (rootPath : List String) (cfg : LangConfig) :
    ∀ (l : List String) (g : DepGraph) (f x : String), f ∈ l →
      x ∈ fileDeps isFile rootPath cfg f →
      x ∈ depsOf (l.foldl
        (fun g f =>
          if (fileDeps isFile rootPath cfg f).isEmpty then g
          else insertAppend g f (fileDeps isFile rootPath cfg f)) g) f := by
  intro l
  induction l with
  | nil =>
    intro g f x h
    cases h
  | cons a restl ih =>
    intro g f x hf hx
    simp only [List.foldl_cons]
    rcases List.mem_cons.mp hf with heq | hmem
    · have hne : (fileDeps isFile rootPath cfg a).isEmpty = false := by
        rw [← heq]
        cases hfd : fileDeps isFile rootPath cfg f with
        | nil =>
          rw [hfd] at hx
          cases hx
        | cons y t => rfl
      rw [if_neg (by rw [hne]; exact Bool.false_ne_true)]
      apply mem_depsOf_foldFiles_preserve
      rw [heq]
      apply mem_depsOf_insertAppend_self
      rw [← heq]
      exact hx
    · exact ih _ f x hmem hx

theorem mem_depsOf_analyzeLang_preserve (isFile : List String → Bool)
    (rootPath : List String) (cfg : LangConfig) (files : List String)
    {g : DepGraph} {f x : String} (h : x ∈ depsOf g f) :
    x ∈ depsOf (analyzeLang isFile rootPath cfg files g) f :=
  mem_depsOf_foldFiles_preserve isFile rootPath cfg (files.filter cfg.accepts) g f x h

theorem mem_depsOf_analyzeLang_intro (isFile : List String → Bool)
    (rootPath : List String) (cfg : LangConfig) (files : List String)
    {g : DepGraph} {f x : String} (hacc : cfg.accepts f = true) (hf : f ∈ files)
    (hx : x ∈ fileDeps isFile rootPath cfg f) :
    x ∈ depsOf (analyzeLang isFile rootPath cfg files g) f :=
  mem_depsOf_foldFiles_intro isFile rootPath cfg (files.filter cfg.accepts) g f x
    (List.mem_filter.mpr ⟨hf, hacc⟩) hx

theorem mem_depsOf_foldCfgs_preserve (isFile : List String → Bool)
    (rootPath : List String) (files : List String) :
    ∀ (cfgs : List LangConfig) (g : DepGraph) (f x : String), x ∈ depsOf g f →
      x ∈ depsOf (cfgs.foldl (fun g cfg => analyzeLang isFile rootPath cfg files g) g) f := by
  intro cfgs
  induction cfgs with
  | nil => exact fun g f x h => h
  | cons c restc ih =>
    intro g f x h
    simp only [List.foldl_cons]
    exact ih _ f x (mem_depsOf_analyzeLang_preserve isFile rootPath c files h)

theorem mem_depsOf_analyze_intro (isFile : List String → Bool)
    (rootPath : List String) (files : List String) :
    ∀ (cfgs : List LangConfig) (g : DepGraph) (cfg : LangConfig) (f x : String),
      cfg ∈ cfgs → cfg.accepts f = true → f ∈ files →
      x ∈ fileDeps isFile rootPath cfg f →
      x ∈ depsOf (cfgs.foldl (fun g cfg => analyzeLang isFile rootPath cfg files g) g) f := by
  intro cfgs
  induction cfgs with
  | nil =>
    intro g cfg f x h
    cases h
  | cons c restc ih =>
    intro g cfg f x hcfg hacc hf hx
    simp only [List.foldl_cons]
    rcases List.mem_cons.mp hcfg with heq | hmem
    · have hstep : x ∈ depsOf (analyzeLang isFile rootPath c files g) f := by
        rw [heq] at hacc hx
        exact mem_depsOf_analyzeLang_intro isFile rootPath c files hacc hf hx
      exact mem_depsOf_foldCfgs_preserve isFile rootPath files restc _ f x hstep
    · exact ih _ cfg f x hmem hacc hf hx

theorem initReach_mem_values {g : DepGraph} {d x : String} (h : InitReach g d x) :
    ∃ v dsv, lookupG g v = some dsv ∧ x ∈ dsv := by
  induction h with
  | direct f y hy =>
    cases hl : lookupG g f with
    | none =>
      rw [depsOf_eq_nil_of_lookup hl] at hy
      cases hy
    | some ds =>
      rw [depsOf_eq_of_lookup hl] at hy
      exact ⟨f, ds, hl, hy⟩
  | step f d x _ _ _ ih => exact ih

theorem expand_values_from {g : DepGraph} {P : String → Prop}
    (hg : ∀ e ∈ g, ∀ d ∈ e.2, P d) :
    ∀ f ds, lookupG (expand_init_dependencies g) f = some ds → ∀ d ∈ ds, P d := by
  intro f ds h d hd
  rw [lookupG_expand] at h
  cases hl : lookupG g f with
  | none =>
    rw [hl] at h
    exact Option.noConfusion h
  | some ds0 =>
    rw [hl] at h
    have hds : ds = List.insertionSort natLE (expandEntryDeps g ds0) :=
      (Option.some.inj h).symm
    rw [hds, mem_insertionSort_natLE, mem_expandEntryDeps] at hd
    obtain ⟨e0, he0g, _, he02⟩ := key_mem_of_lookup hl
    rcases hd with hmem | ⟨dd, _, _, hreach⟩
    · apply hg e0 he0g
      rw [he02]
      exact hmem
    · obtain ⟨v, dsv, hlv, hmv⟩ := initReach_mem_values hreach
      obtain ⟨ev, hevg, _, hev2⟩ := key_mem_of_lookup hlv
      apply hg ev hevg
      rw [hev2]
      exact hmv

theorem mem_depsOf_expand {g : DepGraph} {f x : String} (h : x ∈ depsOf g f) :
    x ∈ depsOf (expand_init_dependencies g) f := by
  rw [depsOf_expand]
  cases hl : lookupG g f with
  | none =>
    rw [depsOf_eq_nil_of_lookup hl] at h
    cases h
  | some ds =>
    rw [depsOf_eq_of_lookup hl] at h
    rw [mem_insertionSort_natLE, mem_expandEntryDeps]
    exact Or.inl h

end RP

namespace RP

theorem entries_good_foldFiles {P : String → Prop} (isFile : List String → Bool)
    (rootPath : List String) (cfg : LangConfig)
    (hP : ∀ f, ∀ d ∈ fileDeps isFile rootPath cfg f, P d) :
    ∀ (l : List String) (g : DepGraph), (∀ e ∈ g, ∀ d ∈ e.2, P d) →
      ∀ e ∈ l.foldl
        (fun g f =>
          if (fileDeps isFile rootPath cfg f).isEmpty then g
          else insertAppend g f (fileDeps isFile rootPath cfg f)) g,
        ∀ d ∈ e.2, P d := by
  intro l
  induction l with
  | nil => exact fun g hg => hg
  | cons f0 restl ih =>
    intro g hg
    simp only [List.foldl_cons]
    apply ih
    by_cases he : (fileDeps isFile rootPath cfg f0).isEmpty = true
    · rw [if_pos he]
      exact hg
    · rw [if_neg he]
      exact entries_good_insertAppend hg (hP f0)

theorem entries_good_analyze (isFile : List String → Bool) (rootPath : List String)
    (files : List String) {P : String → Prop}
    (hP : ∀ cfg f, ∀ d ∈ fileDeps isFile rootPath cfg f, P d) :
    ∀ (cfgs : List LangConfig) (g : DepGraph), (∀ e ∈ g, ∀ d ∈ e.2, P d) →
      ∀ e ∈ cfgs.foldl (fun g cfg => analyzeLang isFile rootPath cfg files g) g,
        ∀ d ∈ e.2, P d := by
  intro cfgs
  induction cfgs with
  | nil => exact fun g hg => hg
  | cons c restc ih =>
    intro g hg
    simp only [List.foldl_cons]
    apply ih
    exact entries_good_foldFiles isFile rootPath c (hP c) (files.filter c.accepts) g hg

end RP

namespace RP

/-- C2 counterexample: a JavaScript file importing `"./a"` from
`/r/a.js` resolves back to `/r/a.js` itself, and the pipeline keeps the
self-edge: the key `/r/a.js` maps to a sequence containing itself. -/
theorem analyze_self_edge_counterexample :
    lookupG
        (expand_init_dependencies
          (analyze_dependencies (isFileAt ["r"] (Disk.dir [("a.js", Disk.file)])) ["r"]
            [{ accepts := fun _ => true, importsOf := fun _ => ["./a"], rewrite := id,
               suffixes := ["", ".js", ".jsx", ".ts", ".tsx", "/index.js", "/index.jsx",
                 "/index.ts", "/index.tsx"] }]
            ["/r/a.js"]))
        "/r/a.js" = some ["/r/a.js"] := by
  decide

/-- C2 amended: an import whose literal resolves back to the importing
file itself is inserted like any other dependency and survives the init
expansion: self-edges are not dropped. -/
theorem analyze_expand_keeps_self_edge (isFile : List String → Bool)
    (rootPath : List String) (cfgs : List LangConfig) (cfg : LangConfig)
    (files : List String) (f lit : String)
    (hcfg : cfg ∈ cfgs) (hacc : cfg.accepts f = true) (hf : f ∈ files)
    (hlit : lit ∈ cfg.importsOf f)
    (hres : resolve_relative_path isFile (parentComps f) (cfg.rewrite lit) rootPath
        cfg.suffixes = some f) :
    f ∈ depsOf (expand_init_dependencies (analyze_dependencies isFile rootPath cfgs files)) f := by
  apply mem_depsOf_expand
  unfold analyze_dependencies
  apply mem_depsOf_analyze_intro isFile rootPath files cfgs [] cfg f f hcfg hacc hf
  unfold fileDeps
  exact List.mem_filterMap.mpr ⟨lit, hlit, hres⟩

theorem analyze_expand_keeps_self_edge_witness :
    "/r/a.js" ∈ depsOf
        (expand_init_dependencies
          (analyze_dependencies (isFileAt ["r"] (Disk.dir [("a.js", Disk.file)])) ["r"]
            [{ accepts := fun _ => true, importsOf := fun _ => ["./a"], rewrite := id,
               suffixes := ["", ".js", ".jsx", ".ts", ".tsx", "/index.js", "/index.jsx",
                 "/index.ts", "/index.tsx"] }]
            ["/r/a.js"]))
        "/r/a.js" :=
  analyze_expand_keeps_self_edge (isFileAt ["r"] (Disk.dir [("a.js", Disk.file)])) ["r"]
    _ _ ["/r/a.js"] "/r/a.js" "./a"
    (List.mem_cons_self _ _) rfl (List.mem_cons_self _ _) (List.mem_cons_self _ _)
    (by decide)

/-- C3 counterexample: file `b.py` is excluded by the ignore rules (so it is
invisible to the tree builder), yet `a.py`'s import of `b` resolves to it
on disk and the returned graph contains `/r/b.py` as a value. -/
theorem analyze_value_not_visible_counterexample :
    lookupG
        (expand_init_dependencies
          (analyze_dependencies
            (isFileAt ["r"] (Disk.dir [("a.py", Disk.file), ("b.py", Disk.file)])) ["r"]
            [{ accepts := fun _ => true, importsOf := fun _ => ["b"],
               rewrite := python_clean_import, suffixes := [".py", "/__init__.py"] }]
            (collect_files (build_tree 3 (fun p _ => p == ["r", "b.py"]) ["r"]
              (Disk.dir [("a.py", Disk.file), ("b.py", Disk.file)])))))
        "/r/a.py" = some ["/r/b.py"] ∧
      "/r/b.py" ∉ collect_files (build_tree 3 (fun p _ => p == ["r", "b.py"]) ["r"]
        (Disk.dir [("a.py", Disk.file), ("b.py", Disk.file)])) := by
  constructor
  · decide
  · decide

/-- C3 amended: every value of the returned graph is a regular file on
disk whose cleaned path lies under the analysis root; visibility to the
tree builder is not guaranteed (ignored files can appear as values). -/
theorem analyze_expand_values_good (isFile : List String → Bool)
    (rootPath : List String) (cfgs : List LangConfig) (files : List String)
    (f : String) (ds : List String)
    (h : lookupG (expand_init_dependencies
        (analyze_dependencies isFile rootPath cfgs files)) f = some ds) :
    ∀ d ∈ ds, ∃ c, d = renderPath c ∧ isFile c = true ∧ rootPath.isPrefixOf c = true := by
  refine expand_values_from ?_ f ds h
  unfold analyze_dependencies
  apply entries_good_analyze isFile rootPath files (fun cfg f => fileDeps_good) cfgs []
  intro e he
  cases he

theorem analyze_expand_values_good_witness :
    ∃ c, "/r/b.py" = renderPath c ∧
      isFileAt ["r"] (Disk.dir [("a.py", Disk.file), ("b.py", Disk.file)]) c = true ∧
      (["r"] : List String).isPrefixOf c = true :=
  analyze_expand_values_good
    (isFileAt ["r"] (Disk.dir [("a.py", Disk.file), ("b.py", Disk.file)])) ["r"]
    [{ accepts := fun _ => true, importsOf := fun _ => ["b"],
       rewrite := python_clean_import, suffixes := [".py", "/__init__.py"] }]
    ["/r/a.py"] "/r/a.py" ["/r/b.py"] (by decide) "/r/b.py" (List.mem_cons_self _ _)

end RP

namespace RP

/-- C4 counterexample: a child directory `sub` carries its own
`.gitignore` whose matcher would exclude `sub/x`; the code's `build_tree`
keeps using the outer matcher and emits `sub/x`, unlike the
spec-described nested-replacement builder. -/
theorem build_tree_nested_matcher_counterexample :
    "/sub/x" ∈ collect_files (build_tree 3 (fun _ _ => false) []
        (Disk.dir [("sub", Disk.dir [(".gitignore", Disk.file), ("x", Disk.file)])])) ∧
      "/sub/x" ∉ collect_files (buildTreeSpecNested 3 (fun _ => fun q _ => q == ["sub", "x"])
        (fun _ _ => false) []
        (Disk.dir [("sub", Disk.dir [(".gitignore", Disk.file), ("x", Disk.file)])])) := by
  constructor
  · decide
  · decide

/-- C4 amended: the recursion into a child directory always reuses the
caller's ignore matcher; nested `.gitignore` files are never consulted.
The subtree node for a kept child directory is built with the very same
matcher. -/
theorem build_tree_reuses_matcher (fuel : Nat) (ig : Matcher) (path : List String)
    (entries : List (String × Disk)) (name : String) (ces : List (String × Disk))
    (hmem : (name, Disk.dir ces) ∈ entries)
    (hig : ig (path ++ [name]) true = false) :
    (name, TreeNodeM.folder (renderPath (path ++ [name]))
        (build_tree fuel ig (path ++ [name]) (Disk.dir ces))) ∈
      build_tree (fuel + 1) ig path (Disk.dir entries) := by
  simp only [build_tree]
  apply List.mem_map.mpr
  refine ⟨(name, Disk.dir ces), ?_, rfl⟩
  rw [sortDirents, List.mem_insertionSort]
  apply List.mem_filter.mpr
  refine ⟨hmem, ?_⟩
  simp [isDirD, hig]

theorem build_tree_reuses_matcher_witness :
    ("sub", TreeNodeM.folder (renderPath (([] : List String) ++ ["sub"]))
        (build_tree 1 (fun _ _ => false) (([] : List String) ++ ["sub"])
          (Disk.dir [(".gitignore", Disk.file), ("x", Disk.file)]))) ∈
      build_tree 2 (fun _ _ => false) []
        (Disk.dir [("sub", Disk.dir [(".gitignore", Disk.file), ("x", Disk.file)])]) :=
  build_tree_reuses_matcher 1 (fun _ _ => false) []
    [("sub", Disk.dir [(".gitignore", Disk.file), ("x", Disk.file)])]
    "sub" [(".gitignore", Disk.file), ("x", Disk.file)]
    (List.mem_cons_self _ _) rfl

/-- C5: the comparator `build_tree` sorts with does order folders
before files and orders names naturally (`file2` before `file10`); the
sorted order is computed, but the surrounding Rust code then stores the
nodes in a `HashMap`, which does not retain it. -/
theorem sortDirents_order_evaluation :
    (sortDirents [("file10", Disk.file), ("file2", Disk.file), ("z", Disk.dir [])]).map
        Prod.fst = ["z", "file2", "file10"] := by
  decide

end RP

namespace RP

/-- C8 counterexample: two distinct paths that compare equal under the
spec's natural comparison (`b2` vs `b02`: the digit runs have the same
integer value) both survive expansion, so the value sequence is not
strictly increasing. -/
theorem expand_init_not_strict_counterexample :
    lookupG (expand_init_dependencies [("/r/f.py", ["/r/b2.py", "/r/b02.py"])]) "/r/f.py" =
        some ["/r/b2.py", "/r/b02.py"] ∧
      ¬ List.Chain' (fun a b => natural_compare a b = Ordering.lt)
          ["/r/b2.py", "/r/b02.py"] := by
  constructor
  · decide
  · intro hch
    rw [List.chain'_cons] at hch
    have hlt := hch.1
    revert hlt
    decide

/-- C8 amended: after init expansion every value sequence is
duplicate-free and non-decreasing under natural comparison (consecutive
elements never compare greater-than); strictness fails only for distinct
paths that compare naturally equal. -/
theorem expand_init_values_sorted (g : DepGraph) (f : String) (ds : List String)
    (h : lookupG (expand_init_dependencies g) f = some ds) :
    ds.Nodup ∧ List.Chain' natLE ds := by
  rw [lookupG_expand] at h
  cases hl : lookupG g f with
  | none =>
    rw [hl] at h
    exact Option.noConfusion h
  | some ds0 =>
    rw [hl] at h
    have hds : ds = List.insertionSort natLE (expandEntryDeps g ds0) :=
      (Option.some.inj h).symm
    rw [hds]
    constructor
    · exact nodup_insertionSort_natLE (nodup_expandEntryDeps g ds0)
    · exact List.Pairwise.chain' (sorted_insertionSort_natLE (expandEntryDeps g ds0))

theorem expand_init_values_sorted_witness :
    (["/r/b2.py", "/r/b02.py"] : List String).Nodup ∧
      List.Chain' natLE ["/r/b2.py", "/r/b02.py"] :=
  expand_init_values_sorted [("/r/f.py", ["/r/b2.py", "/r/b02.py"])] "/r/f.py"
    ["/r/b2.py", "/r/b02.py"] (by decide)

end RP

namespace RP

/-- C10: when path validation fails, both `/api/directory` and
`/api/dependencies` answer with HTTP 200 and a JSON body
`{success: false, error: message}`; validation failure never yields a
4xx/5xx status on these endpoints. -/
theorem handlers_validation_failure_http_ok (env : ServerEnv) (q : Option String)
    (e : String) (h : validate_path env (q.getD ".") = Except.error e) :
    (get_directory_contents env q).status = HttpStatus.ok ∧
    (get_directory_contents env q).success = false ∧
    (get_directory_contents env q).error = some e ∧
    (get_dependencies env q).status = HttpStatus.ok ∧
    (get_dependencies env q).success = false ∧
    (get_dependencies env q).error = some e := by
  unfold get_directory_contents get_dependencies
  simp only [h]
  exact ⟨trivial, trivial, trivial, trivial, trivial, trivial⟩

theorem handlers_validation_failure_http_ok_witness :
    (get_directory_contents
        { pathExists := fun _ => false, canonicalize := fun _ => none,
          readDirAt := fun _ => none, matcherAt := fun _ => fun _ _ => false,
          configs := [] } none).status = HttpStatus.ok ∧
    (get_directory_contents
        { pathExists := fun _ => false, canonicalize := fun _ => none,
          readDirAt := fun _ => none, matcherAt := fun _ => fun _ _ => false,
          configs := [] } none).success = false ∧
    (get_directory_contents
        { pathExists := fun _ => false, canonicalize := fun _ => none,
          readDirAt := fun _ => none, matcherAt := fun _ => fun _ _ => false,
          configs := [] } none).error = some "Path does not exist: ." ∧
    (get_dependencies
        { pathExists := fun _ => false, canonicalize := fun _ => none,
          readDirAt := fun _ => none, matcherAt := fun _ => fun _ _ => false,
          configs := [] } none).status = HttpStatus.ok ∧
    (get_dependencies
        { pathExists := fun _ => false, canonicalize := fun _ => none,
          readDirAt := fun _ => none, matcherAt := fun _ => fun _ _ => false,
          configs := [] } none).success = false ∧
    (get_dependencies
        { pathExists := fun _ => false, canonicalize := fun _ => none,
          readDirAt := fun _ => none, matcherAt := fun _ => fun _ _ => false,
          configs := [] } none).error = some "Path does not exist: ." :=
  handlers_validation_failure_http_ok
    { pathExists := fun _ => false, canonicalize := fun _ => none,
      readDirAt := fun _ => none, matcherAt := fun _ => fun _ _ => false,
      configs := [] } none "Path does not exist: ." rfl

end RP
